import Mathlib

/-!
Verification of the Discord Mosaic TTS clip pipeline.

This file gives a shallow embedding, in Lean 4, of the core functions of the
repository (`utils.py`, `clip_parser.py`, `main.py`, `deduplicator.py`) and
proves or refutes the specification claims about them.

Modelling conventions:
* Python strings are `List Char`; only the ASCII whitespace / word characters
  matter for the inputs considered here, so `\s`, `\w` and `str.strip()` are
  modelled over the ASCII sets.
* Python floats are idealised as exact numbers: `ℚ` where the code only
  compares and sorts values, `ℝ` where the code takes square roots
  (`np.linalg.norm`) or Fourier transforms.
* The sentence-transformer embedding model is an opaque external collaborator;
  the similarity of a fixed query against a clip is abstracted as a function
  `sim : α → ℚ`, which is exactly how `find_best_clips` consumes it.
-/

namespace MosaicTTS

/- ────────────────────────────────────────────
   Python string primitives
   ──────────────────────────────────────────── -/

/-- ASCII whitespace, the characters matched by Python's `\s` and stripped by
`str.strip()` (the Unicode whitespace characters are not modelled). -/
def isPySpace (c : Char) : Bool :=
  c = ' ' || c = '\t' || c = '\n' || c = '\r' || c = '\x0b' || c = '\x0c'

/-- Python's `str.strip()`: remove leading and trailing whitespace. -/
def pyStrip (cs : List Char) : List Char :=
  ((cs.dropWhile isPySpace).reverse.dropWhile isPySpace).reverse

/-- Python's `str.lower()` / `re.IGNORECASE`, ASCII case folding. -/
def lowerText (cs : List Char) : List Char := cs.map Char.toLower

/-- Python's `\w` word character (ASCII part): letters, digits, underscore. -/
def isWordCharB (c : Char) : Bool := c.isAlphanum || c = '_'

/- ────────────────────────────────────────────
   utils.py: split_semantic_beats
   ──────────────────────────────────────────── -/

/-- Consume one or more whitespace characters (the regex piece `\s+`,
greedily); `none` when the input does not start with whitespace. -/
def dropSpaces1 (cs : List Char) : Option (List Char) :=
  match cs with
  | c :: rest => if isPySpace c then some (rest.dropWhile isPySpace) else none
  | [] => none

/-- Consume an exact literal token; `none` when the input does not start
with it. -/
def dropToken : List Char → List Char → Option (List Char)
  | [], cs => some cs
  | _ :: _, [] => none
  | t :: ts, c :: cs => if c = t then dropToken ts cs else none

/-- One conjunction alternative of the beat-splitting regex, `\s+w\s+`:
whitespace, the word, whitespace.  `\s+` is greedy and the words start with a
letter, so the greedy run is the only viable one and matching is
deterministic. -/
def matchConjAt (w : List Char) (cs : List Char) : Option (List Char) :=
  (dropSpaces1 cs).bind fun r1 => (dropToken w r1).bind fun r2 => dropSpaces1 r2

/-- Try the separator regex of `split_semantic_beats`,
`[.!?;]|\s+but\s+|\s+and\s+|\s+so\s+|\s+then\s+`, at the start of the input;
returns the remainder after the matched separator.  The alternatives are
tried in the pattern's order. -/
def matchSepAt (cs : List Char) : Option (List Char) :=
  match cs with
  | [] => none
  | c :: rest =>
    if c = '.' || c = '!' || c = '?' || c = ';' then some rest
    else
      matchConjAt ("but".data) cs <|> matchConjAt ("and".data) cs <|>
        matchConjAt ("so".data) cs <|> matchConjAt ("then".data) cs

/-- Leftmost separator match: the fragment before the match and the remainder
after it, or `none` when no separator occurs (`re.split` scans left to
right). -/
def findSep : List Char → Option (List Char × List Char)
  | [] => none
  | c :: cs =>
    match matchSepAt (c :: cs) with
    | some r => some ([], r)
    | none => (findSep cs).map fun pr => (c :: pr.1, pr.2)

theorem dropSpaces1_length {cs r : List Char} (h : dropSpaces1 cs = some r) :
    r.length < cs.length := by
  match cs with
  | [] => simp [dropSpaces1] at h
  | c :: rest =>
    by_cases hc : isPySpace c
    · simp only [dropSpaces1, hc, if_pos, Option.some.injEq] at h
      subst h
      exact Nat.lt_succ_of_le (List.dropWhile_suffix _).sublist.length_le
    · simp [dropSpaces1, hc] at h

theorem dropToken_length : ∀ {t cs r : List Char}, dropToken t cs = some r →
    r.length ≤ cs.length
  | [], cs, r, h => by simp only [dropToken, Option.some.injEq] at h; simp [h]
  | _ :: _, [], r, h => by simp [dropToken] at h
  | t :: ts, c :: cs, r, h => by
    by_cases hc : c = t
    · simp only [dropToken, hc, if_pos] at h
      exact Nat.le_succ_of_le (dropToken_length h)
    · simp [dropToken, hc] at h

theorem matchConjAt_length {w cs r : List Char} (h : matchConjAt w cs = some r) :
    r.length < cs.length := by
  unfold matchConjAt at h
  rcases Option.bind_eq_some.mp h with ⟨r1, h1, h⟩
  rcases Option.bind_eq_some.mp h with ⟨r2, h2, h3⟩
  calc r.length < r2.length := dropSpaces1_length h3
    _ ≤ r1.length := dropToken_length h2
    _ < cs.length := dropSpaces1_length h1

theorem matchSepAt_length {cs r : List Char} (h : matchSepAt cs = some r) :
    r.length < cs.length := by
  match cs with
  | [] => simp [matchSepAt] at h
  | c :: rest =>
    simp only [matchSepAt] at h
    by_cases hc : (c = '.' || c = '!' || c = '?' || c = ';') = true
    · rw [if_pos hc] at h
      cases h
      exact Nat.lt_succ_self _
    · rw [if_neg hc] at h
      rcases (Option.orElse_eq_some _ _ _).mp h with h' | ⟨-, h'⟩
      · exact matchConjAt_length h'
      rcases (Option.orElse_eq_some _ _ _).mp h' with h'' | ⟨-, h''⟩
      · exact matchConjAt_length h''
      rcases (Option.orElse_eq_some _ _ _).mp h'' with h''' | ⟨-, h'''⟩
      · exact matchConjAt_length h'''
      · exact matchConjAt_length h'''

theorem findSep_rest_length : ∀ {cs : List Char} {pr : List Char × List Char},
    findSep cs = some pr → pr.2.length < cs.length
  | [], pr, h => by simp [findSep] at h
  | c :: cs, pr, h => by
    unfold findSep at h
    rcases hm : matchSepAt (c :: cs) with _ | r <;> rw [hm] at h
    · rcases hf : findSep cs with _ | ⟨p', r'⟩ <;> rw [hf] at h
      · simp at h
      · simp only [Option.map_some] at h
        cases h
        show r'.length < cs.length + 1
        exact Nat.lt_succ_of_lt (findSep_rest_length hf)
    · cases h
      exact matchSepAt_length hm

/-- The raw `re.split` on the beat separators: the list of fragments between
(non-captured) separator matches. -/
def pySplit (cs : List Char) : List (List Char) :=
  match h : findSep cs with
  | none => [cs]
  | some pr => pr.1 :: pySplit pr.2
termination_by cs.length
decreasing_by exact findSep_rest_length h

/-- Splits a message into semantic beats (`utils.split_semantic_beats`):
`re.split` on the separator pattern, strip each fragment, keep the non-empty
ones, and fall back to the stripped original text when nothing remains. -/
def split_semantic_beats (text : List Char) : List (List Char) :=
  let beats := ((pySplit text).map pyStrip).filter fun b => !b.isEmpty
  if beats.isEmpty then [pyStrip text] else beats

/-- Interleave fragments with the separator chunks that were removed between
them; used to state that `pySplit` preserves the source order of content. -/
def joinWithSeps : List (List Char) → List (List Char) → List Char
  | [], _ => []
  | p :: ps, [] => p ++ joinWithSeps ps []
  | p :: ps, s :: ss => p ++ s ++ joinWithSeps ps ss

/- ────────────────────────────────────────────
   utils.py: find_best_clips; main.py: per-beat selection
   ──────────────────────────────────────────── -/

/-- Ranks clips by semantic similarity (`utils.find_best_clips`).  The
similarity of the fixed query phrase against one clip,
`cosine_similarity(phrase_emb, clip["embedding"])`, is abstracted as an
arbitrary score function `sim : α → ℚ`, which is exactly how the ranking
logic consumes it.  The function builds the scored list, sorts it by score
descending — `list.sort(reverse=True)` is a stable descending sort, which is
uniquely determined by the key order and is implemented here by Mathlib's
stable `insertionSort` — then keeps the entries scoring at least
`min_similarity` and truncates to the first `top_n`. -/
def find_best_clips {α : Type} (sim : α → ℚ) (clips : List α) (top_n : ℕ)
    (min_similarity : ℚ) : List α :=
  let scored := clips.map fun clip => (sim clip, clip)
  let sorted := scored.insertionSort fun p q => q.1 ≤ p.1
  ((sorted.filter fun p => decide (min_similarity ≤ p.1)).map Prod.snd).take
    top_n

/-- The per-beat clip selection of `main.process_message` (lines 112-118):
request the top clips above the configured threshold and, if nothing
qualifies, fall back to
`find_best_clips(beat, clips, top_n=1, min_similarity=0)`. -/
def selectClipsForBeat {α : Type} (sim : α → ℚ) (clips : List α) (top_n : ℕ)
    (semantic_threshold : ℚ) : List α :=
  let selected := find_best_clips sim clips top_n semantic_threshold
  if selected.isEmpty then find_best_clips sim clips 1 0 else selected

/- ────────────────────────────────────────────
   utils.py: is_whisper_hallucination / clean_hallucination
   ──────────────────────────────────────────── -/

/-- Match `k` further repetitions of the group `\btok\s*`.  Each repetition
after the first needs its `\b` to hold, and since `tok` starts and ends with
word characters that forces at least one whitespace character between
consecutive tokens; `\s*` is greedy and deterministic here. -/
def matchTokenRunsAux (tok : List Char) : ℕ → List Char → Bool
  | 0, _ => true
  | k + 1, cs =>
    let ws := cs.takeWhile isPySpace
    decide (1 ≤ ws.length) && tok.isPrefixOf (cs.drop ws.length) &&
      matchTokenRunsAux tok k ((cs.drop ws.length).drop tok.length)

/-- Match the regex `(\btok\s*){k,}` at the start of the input (the leading
`\b` is checked by the caller). -/
def matchTokenRunAt (tok : List Char) (k : ℕ) (cs : List Char) : Bool :=
  tok.isPrefixOf cs && matchTokenRunsAux tok (k - 1) (cs.drop tok.length)

/-- The regex word boundary `\b` before position `i` of `t`, for a pattern
continuing with a word character: position 0, or a non-word character just
before. -/
def boundaryBefore (t : List Char) (i : ℕ) : Bool :=
  match (t.take i).getLast? with
  | none => true
  | some c => !isWordCharB c

/-- Search for `(\btok\s*){k,}` anywhere in `t` (`re.search` semantics). -/
def hasTokenRun (tok : List Char) (k : ℕ) (t : List Char) : Bool :=
  (List.range (t.length + 1)).any fun i =>
    boundaryBefore t i && matchTokenRunAt tok k (t.drop i)

/-- Substring search for a literal pattern. -/
def containsTok (pat : List Char) (t : List Char) : Bool :=
  (List.range (t.length + 1)).any fun i => pat.isPrefixOf (t.drop i)

/-- Match `thank you(\.|\s)*thank you(\.|\s)*thank you` at the start of the
input; `(\.|\s)*` is deterministic because the continuation starts with `t`,
which the class does not contain. -/
def thankYouAt (cs : List Char) : Bool :=
  ("thank you".data).isPrefixOf cs &&
  (let r1 := (cs.drop 9).dropWhile fun c => c = '.' || isPySpace c
   ("thank you".data).isPrefixOf r1 &&
     ("thank you".data).isPrefixOf
       ((r1.drop 9).dropWhile fun c => c = '.' || isPySpace c))

/-- Search for the repeated thank-you pattern anywhere. -/
def hasThankYou (t : List Char) : Bool :=
  (List.range (t.length + 1)).any fun i => thankYouAt (t.drop i)

/-- Match `\[music\](\s*\[music\])+` at the start of the input (one extra
repetition suffices for `re.search` existence). -/
def musicAt (cs : List Char) : Bool :=
  ("[music]".data).isPrefixOf cs &&
  ("[music]".data).isPrefixOf ((cs.drop 7).dropWhile isPySpace)

/-- Search for the repeated music marker anywhere. -/
def hasMusicRun (t : List Char) : Bool :=
  (List.range (t.length + 1)).any fun i => musicAt (t.drop i)

/-- The fixed `_HALLUCINATION_PATTERNS` table of `utils.py`: the `IGNORECASE`
patterns are matched against the case-folded text. -/
def hallucinationPatternHit (text : List Char) : Bool :=
  let t := lowerText text
  hasTokenRun ("ha".data) 5 t || hasTokenRun ("haha".data) 4 t ||
    hasTokenRun ("lol".data) 4 t || hasTokenRun ("um".data) 5 t ||
    hasTokenRun ("uh".data) 5 t || hasThankYou t ||
    containsTok ("please subscribe".data) t ||
    containsTok ("like and subscribe".data) t ||
    containsTok ("see you in the next".data) t ||
    hasMusicRun t || text.any fun c => c = '♪'

/-- The long-repeat scan of `is_whisper_hallucination`: some chunk of length
`L ∈ [8, 30]` starting at some `i ∈ range(len(text) - 3 * L)` repeats three
times consecutively.  Note the scan stops one start short of the final
possible position, exactly as `range(len(text) - (length * 3))` does. -/
def hasTripleRepeat (text : List Char) : Bool :=
  (List.range' 8 23).any fun L =>
    (List.range (text.length - L * 3)).any fun i =>
      decide ((text.drop i).take L = (text.drop (i + L)).take L) &&
        decide ((text.drop i).take L = (text.drop (i + 2 * L)).take L)

/-- Detects Whisper hallucinations (`utils.is_whisper_hallucination`): text
below 50 characters is never flagged (this subsumes the `not text` check);
otherwise the pattern table, the triple-repeat scan, and the length > 500
heuristic are consulted in order. -/
def is_whisper_hallucination (text : List Char) : Bool :=
  if text.length < 50 then false
  else if hallucinationPatternHit text then true
  else if hasTripleRepeat text then true
  else decide (500 < text.length)

/-- Salvage text from a hallucinated transcript
(`utils.clean_hallucination`): scan substring lengths `L = 2..20`, and for
each `L` the start positions `i ∈ range(len(text) - 2 * L)` left to right;
at the first immediately repeated chunk whose preceding prefix is non-empty
after stripping, return that stripped prefix; otherwise fall back to the
first 100 characters, stripped. -/
def clean_hallucination (text : List Char) : List Char :=
  match (List.range' 2 19).findSome? (fun L =>
      (List.range (text.length - L * 2)).findSome? fun i =>
        if (text.drop i).take L = (text.drop (i + L)).take L ∧
            pyStrip (text.take i) ≠ []
        then some (pyStrip (text.take i)) else none) with
  | some r => r
  | none => pyStrip (text.take 100)

/-- A successful hit of `clean_hallucination`'s scan: an immediately repeated
chunk of length `L ∈ [2, 20]` at a scanned position `i` whose preceding
prefix strips to something non-empty. -/
def cleanHit (text : List Char) (L i : ℕ) : Prop :=
  2 ≤ L ∧ L ≤ 20 ∧ i < text.length - L * 2 ∧
    (text.drop i).take L = (text.drop (i + L)).take L ∧
    pyStrip (text.take i) ≠ []

instance (text : List Char) (L i : ℕ) : Decidable (cleanHit text L i) := by
  unfold cleanHit
  infer_instance

/- ────────────────────────────────────────────
   clip_parser.py: split_segment_by_words
   ──────────────────────────────────────────── -/

/-- One word-level timing entry of a Whisper segment, `{word, start, end}`;
the `end` key is called `stop` here because `end` is a Lean keyword. -/
structure WhisperWord where
  word : List Char
  start : ℚ
  stop : ℚ
deriving DecidableEq

/-- A sub-segment produced by the splitter, `{start, end, text}`. -/
structure SubSegment where
  start : ℚ
  stop : ℚ
  text : List Char
deriving DecidableEq

/-- A Whisper segment: its own timing and text plus the word timings. -/
structure WSegment where
  start : ℚ
  stop : ℚ
  text : List Char
  words : List WhisperWord
deriving DecidableEq

/-- The chunk text `" ".join(cw["word"].strip() for cw in current_words)`. -/
def joinWordTexts (ws : List WhisperWord) : List Char :=
  List.intercalate (" ".data) (ws.map fun w => pyStrip w.word)

/-- Close the running word group into a sub-segment,
`{start: chunk_start, end: current_words[-1]["end"], text: join(...)}` (the
group is non-empty at every call site; the 0 default is unreachable). -/
def closeChunk (chunk_start : ℚ) (current : List WhisperWord) : SubSegment :=
  { start := chunk_start,
    stop := ((current.getLast?).map fun w => w.stop).getD 0,
    text := joinWordTexts current }

/-- The word loop of `split_segment_by_words`: when the running group is
non-empty and the next word's end exceeds `chunk_start + max_dur`, the group
is closed and a new one starts at that word; the word is then appended to the
running group, and the final group is emitted at the end. -/
def splitWordsLoop (max_dur : ℚ) : List WhisperWord → List WhisperWord → ℚ →
    List SubSegment
  | [], current, chunk_start =>
    if current.isEmpty then [] else [closeChunk chunk_start current]
  | w :: ws, current, chunk_start =>
    if ¬ current.isEmpty ∧ max_dur < w.stop - chunk_start then
      closeChunk chunk_start current :: splitWordsLoop max_dur ws [w] w.start
    else
      splitWordsLoop max_dur ws (current ++ [w]) chunk_start

/-- Splits an over-long Whisper segment at word boundaries
(`clip_parser.split_segment_by_words`): with no word-level timings the
segment itself is returned as a single element; otherwise the words are
grouped greedily starting from `words[0]["start"]`. -/
def split_segment_by_words (seg : WSegment) (max_dur : ℚ) : List SubSegment :=
  match seg.words with
  | [] => [{ start := seg.start, stop := seg.stop, text := seg.text }]
  | w :: _ => splitWordsLoop max_dur seg.words [] w.start

/- ────────────────────────────────────────────
   deduplicator.py / clip_parser.py: catalog data model
   ──────────────────────────────────────────── -/

/-- Mean of a list of reals, `np.mean` (0 for the empty list, which the
banding below never produces). -/
noncomputable def listMean (l : List ℝ) : ℝ := l.sum / l.length

/-- Sum of pointwise products, `np.dot`; the operands have equal length at
every call site, where `zipWith` is exact. -/
noncomputable def listDot (a b : List ℝ) : ℝ := (List.zipWith (· * ·) a b).sum

/-- Euclidean norm, `np.linalg.norm`. -/
noncomputable def listNorm (a : List ℝ) : ℝ :=
  Real.sqrt ((a.map fun x => x * x).sum)

/-- The Hann window `np.hanning M`: `0.5 - 0.5 * cos(2π n / (M - 1))` for
`n = 0..M-1`; numpy special-cases `M = 1` to `[1.]` and `M = 0` to the empty
array. -/
noncomputable def hanning : ℕ → List ℝ
  | 0 => []
  | 1 => [1]
  | n + 2 =>
    (List.range (n + 2)).map fun k =>
      1 / 2 - 1 / 2 * Real.cos (2 * Real.pi * k / (n + 1))

/-- The real-input discrete Fourier transform `np.fft.rfft`: the first
`N / 2 + 1` coefficients `X_k = Σ_{n < N} x_n · e^{-2πi·k·n/N}`. -/
noncomputable def rfft (x : List ℝ) : List ℂ :=
  (List.range (x.length / 2 + 1)).map fun k =>
    ((List.range x.length).map fun n =>
      (x.getD n 0 : ℂ) *
        Complex.exp (-(2 * (Real.pi : ℂ) * Complex.I * k * n) /
          (x.length : ℂ))).sum

/-- Average a magnitude spectrum into 32 equal frequency bands (the band
loop of `audio_to_fingerprint` with its default `n_bins = 32`). -/
noncomputable def frameBands (spectrum : List ℝ) : List ℝ :=
  let bin_size := max 1 (spectrum.length / 32)
  (List.range 32).map fun b =>
    let band_start := b * bin_size
    let band_stop := min ((b + 1) * bin_size) spectrum.length
    if band_start < spectrum.length then
      listMean ((spectrum.drop band_start).take (band_stop - band_start))
    else 0

/-- Builds the spectral signature of a sample array
(`deduplicator.audio_to_fingerprint`, defaults `n_bins = 32`,
`hop_ms = 50`, hence `hop = 16000 · 50/1000 = 800` and `window = 2 · hop =
1600`).  The input is the mono 16 kHz float stream (the
`set_channels(1).set_frame_rate(16000)` conversion is pydub's; it maps
silence to silence).  Empty input yields the empty signature; otherwise the
peak-normalised signal is cut into `max(1, (len - window) // hop)` windows,
each Hann-tapered, transformed, and banded. -/
noncomputable def audio_to_fingerprint (samples : List ℝ) : List (List ℝ) :=
  if samples.length = 0 then []
  else
    let peak := (samples.map fun x => |x|).foldr max 0
    let normed := if 0 < peak then samples.map fun x => x / peak else samples
    let n_frames : ℕ := (max 1 (((samples.length : ℤ) - 1600).fdiv 800)).toNat
    (List.range n_frames).map fun i =>
      frameBands ((rfft (List.zipWith (· * ·)
        ((normed.drop (i * 800)).take 1600)
        (hanning ((normed.drop (i * 800)).take 1600).length))).map
          Complex.abs)

open Classical in
/-- Length-aware similarity of two fingerprints
(`deduplicator.fingerprint_similarity`): 0 when either signature is empty or
the frame counts differ by more than 2×; otherwise the cosine similarity of
the two flattened signatures truncated to the shorter frame count (0 when
either norm vanishes), weighted by the length ratio `min_len / max_len`. -/
noncomputable def fingerprint_similarity (fp1 fp2 : List (List ℝ)) : ℝ :=
  if fp1.length = 0 ∨ fp2.length = 0 then 0
  else
    let min_len := min fp1.length fp2.length
    let max_len := max fp1.length fp2.length
    let lr : ℝ := (min_len : ℝ) / (max_len : ℝ)
    if lr < 1 / 2 then 0
    else
      let a := (fp1.take min_len).flatten
      let b := (fp2.take min_len).flatten
      if listNorm a = 0 ∨ listNorm b = 0 then 0
      else listDot a b / (listNorm a * listNorm b) * lr

/-- A catalog entry, the fields of the clip dictionaries of `clip_parser.py`
that the deduplicator consults (`clip_file`, `source_file`, `text`,
`duration`); the remaining metadata fields play no role in the claims. -/
structure CatClip where
  clip_file : List Char
  source_file : List Char
  text : List Char
  duration : ℚ
deriving DecidableEq

/-- The persisted catalog: `total_clips` and the ordered `clips` array
(`generated_at`, `whisper_model` and the filter snapshot are environment
strings with no bearing on the claims). -/
structure CatalogData where
  total_clips : ℕ
  clips : List CatClip
deriving DecidableEq

/-- A duplicate decision produced by `find_duplicates`:
`{keep, remove, similarity, type}`. -/
structure DupEntry where
  keep : CatClip
  remove : CatClip
  similarity : ℚ
  dtype : List Char
deriving DecidableEq

/-- The mutable state `deduplicator.main` acts on: the catalog file and the
set of clip files on disk (named by `clip_file`). -/
structure LibraryState where
  catalog : CatalogData
  disk_files : List (List Char)
deriving DecidableEq

/-- The acting part of `deduplicator.main` (lines 298-358), taking the
duplicate list computed by the read-only `find_duplicates` as input.
With no duplicates, or without `--delete`, it returns before touching
anything; in delete mode it filters the catalog by `clip_file`, sets
`total_clips` to the new length, and removes the listed files from disk. -/
def dedup_resolve (delete : Bool) (dupes : List DupEntry) (st : LibraryState) :
    LibraryState :=
  if dupes.isEmpty then st
  else if !delete then st
  else
    let remove_files := dupes.map fun d => d.remove.clip_file
    let newClips := st.catalog.clips.filter fun c => decide (c.clip_file ∉ remove_files)
    let newCatalog : CatalogData := { total_clips := newClips.length, clips := newClips }
    let newDisk := st.disk_files.filter fun f => decide (f ∉ remove_files)
    { catalog := newCatalog, disk_files := newDisk }

/-- The catalog object built by `clip_parser.main` (lines 402-415):
`total_clips` is set to `len(all_clips)` and `clips` to `all_clips`. -/
def build_catalog (all_clips : List CatClip) : CatalogData :=
  { total_clips := all_clips.length, clips := all_clips }

/- ────────────────────────────────────────────
   Theorems for C7
   ──────────────────────────────────────────── -/

theorem dropWhile_head?_false {p : Char → Bool} :
    ∀ {l : List Char} {c : Char}, (l.dropWhile p).head? = some c → p c = false
  | [], c, h => by simp at h
  | a :: t, c, h => by
    rw [List.dropWhile_cons] at h
    by_cases ha : p a
    · rw [if_pos ha] at h
      exact dropWhile_head?_false h
    · rw [if_neg ha] at h
      simp only [List.head?_cons, Option.some.injEq] at h
      subst h
      simpa using ha

theorem dropWhile_dropWhile {p : Char → Bool} (l : List Char) :
    (l.dropWhile p).dropWhile p = l.dropWhile p := by
  induction l with
  | nil => rfl
  | cons a t ih =>
    rw [List.dropWhile_cons]
    by_cases ha : p a
    · rw [if_pos ha]
      exact ih
    · rw [if_neg ha, List.dropWhile_cons, if_neg ha]

theorem dropWhile_eq_self_of_head? {p : Char → Bool} {l : List Char}
    (h : ∀ c, l.head? = some c → p c = false) : l.dropWhile p = l := by
  cases l with
  | nil => rfl
  | cons a t =>
    rw [List.dropWhile_cons, if_neg]
    simp [h a rfl]

theorem dropWhile_reverse_dropWhile_fixed (p : Char → Bool) (u : List Char)
    (hu : ∀ c, u.head? = some c → p c = false) :
    ((u.reverse.dropWhile p).reverse).dropWhile p =
      (u.reverse.dropWhile p).reverse := by
  apply dropWhile_eq_self_of_head?
  intro c hc
  rw [List.head?_reverse] at hc
  obtain ⟨w, hw⟩ := @List.dropWhile_suffix _ u.reverse p
  have hv : u.reverse.getLast? = some c := by
    rw [← hw, List.getLast?_append, hc]
    rfl
  rw [List.getLast?_reverse] at hv
  exact hu c hv

theorem pyStrip_idem (cs : List Char) : pyStrip (pyStrip cs) = pyStrip cs := by
  unfold pyStrip
  rw [dropWhile_reverse_dropWhile_fixed isPySpace (cs.dropWhile isPySpace)
      (fun c hc => dropWhile_head?_false hc),
    List.reverse_reverse, dropWhile_dropWhile]

theorem dropSpaces1_decomp {cs r : List Char} (h : dropSpaces1 cs = some r) :
    ∃ s, s ≠ [] ∧ cs = s ++ r := by
  match cs with
  | [] => simp [dropSpaces1] at h
  | c :: rest =>
    by_cases hc : isPySpace c
    · simp only [dropSpaces1, hc, if_pos, Option.some.injEq] at h
      subst h
      exact ⟨c :: rest.takeWhile isPySpace, by simp,
        by rw [List.cons_append, List.takeWhile_append_dropWhile]⟩
    · simp [dropSpaces1, hc] at h

theorem dropToken_decomp : ∀ {t cs r : List Char},
    dropToken t cs = some r → cs = t ++ r
  | [], cs, r, h => by
    simp only [dropToken, Option.some.injEq] at h
    simp [h]
  | _ :: _, [], r, h => by simp [dropToken] at h
  | t :: ts, c :: cs, r, h => by
    by_cases hc : c = t
    · simp only [dropToken, hc, if_pos] at h
      rw [List.cons_append, hc, dropToken_decomp h]
    · simp [dropToken, hc] at h

theorem matchConjAt_decomp {w cs r : List Char} (h : matchConjAt w cs = some r) :
    ∃ sep, sep ≠ [] ∧ cs = sep ++ r := by
  unfold matchConjAt at h
  rcases Option.bind_eq_some.mp h with ⟨r1, h1, h⟩
  rcases Option.bind_eq_some.mp h with ⟨r2, h2, h3⟩
  obtain ⟨s1, hs1, hcs⟩ := dropSpaces1_decomp h1
  obtain ⟨s2, hs2, hr2⟩ := dropSpaces1_decomp h3
  refine ⟨s1 ++ w ++ s2, by simp [hs1], ?_⟩
  rw [hcs, dropToken_decomp h2, hr2]
  simp

theorem matchSepAt_decomp {cs r : List Char} (h : matchSepAt cs = some r) :
    ∃ sep, sep ≠ [] ∧ cs = sep ++ r := by
  match cs with
  | [] => simp [matchSepAt] at h
  | c :: rest =>
    simp only [matchSepAt] at h
    by_cases hc : (c = '.' || c = '!' || c = '?' || c = ';') = true
    · rw [if_pos hc] at h
      cases h
      exact ⟨[c], by simp, rfl⟩
    · rw [if_neg hc] at h
      rcases (Option.orElse_eq_some _ _ _).mp h with h' | ⟨-, h'⟩
      · exact matchConjAt_decomp h'
      rcases (Option.orElse_eq_some _ _ _).mp h' with h'' | ⟨-, h''⟩
      · exact matchConjAt_decomp h''
      rcases (Option.orElse_eq_some _ _ _).mp h'' with h''' | ⟨-, h'''⟩
      · exact matchConjAt_decomp h'''
      · exact matchConjAt_decomp h'''

theorem findSep_decomp : ∀ {cs : List Char} {pr : List Char × List Char},
    findSep cs = some pr → ∃ sep, sep ≠ [] ∧ cs = pr.1 ++ (sep ++ pr.2)
  | [], pr, h => by simp [findSep] at h
  | c :: cs, pr, h => by
    unfold findSep at h
    rcases hm : matchSepAt (c :: cs) with _ | r <;> rw [hm] at h
    · rcases hf : findSep cs with _ | ⟨p', r'⟩ <;> rw [hf] at h
      · simp at h
      · simp only [Option.map_some] at h
        cases h
        obtain ⟨sep, hne, hdec⟩ := findSep_decomp hf
        exact ⟨sep, hne, by simpa using congrArg (c :: ·) hdec⟩
    · cases h
      obtain ⟨sep, hne, hdec⟩ := matchSepAt_decomp hm
      exact ⟨sep, hne, by simpa using hdec⟩

theorem pySplit_eq_none {cs : List Char} (h : findSep cs = none) :
    pySplit cs = [cs] := by
  rw [pySplit.eq_def]
  split
  · rfl
  · rename_i pr heq
    rw [h] at heq
    cases heq

theorem pySplit_eq_some {cs : List Char} {p r : List Char}
    (h : findSep cs = some (p, r)) : pySplit cs = p :: pySplit r := by
  conv_lhs => rw [pySplit.eq_def]
  split
  · rename_i heq
    rw [h] at heq
    cases heq
  · rename_i pr heq
    rw [h] at heq
    cases heq
    rfl

theorem pySplit_reconstruct (cs : List Char) :
    ∃ seps, (∀ s ∈ seps, s ≠ []) ∧ joinWithSeps (pySplit cs) seps = cs := by
  induction cs using pySplit.induct with
  | case1 cs hf =>
    rw [pySplit_eq_none hf]
    exact ⟨[], by simp, by simp [joinWithSeps]⟩
  | case2 cs pr hf ih =>
    obtain ⟨p, r⟩ := pr
    rw [pySplit_eq_some hf]
    obtain ⟨seps, hne, hjoin⟩ := ih
    obtain ⟨sep, hsep, hdec⟩ := findSep_decomp hf
    refine ⟨sep :: seps, ?_, ?_⟩
    · intro s hs
      rcases List.mem_cons.mp hs with h | h
      · exact h ▸ hsep
      · exact hne s h
    · show p ++ sep ++ joinWithSeps (pySplit r) seps = cs
      rw [hjoin, hdec]
      simp [List.append_assoc]

/-- C7: for every input text, `split_semantic_beats` returns a non-empty
sequence of trimmed fragments; the fragments come from splitting the text on
the sentence terminators and standalone conjunctions, in source order (the
fragments of the underlying `re.split`, rejoined with the non-empty separator
chunks that matched, reconstruct the original text); and when no non-empty
fragment survives, the result is the single-element sequence containing the
trimmed original text. -/
theorem c7_split_semantic_beats_spec (text : List Char) :
    split_semantic_beats text ≠ [] ∧
    (∀ b ∈ split_semantic_beats text, pyStrip b = b) ∧
    (∃ seps, (∀ s ∈ seps, s ≠ []) ∧ joinWithSeps (pySplit text) seps = text) ∧
    ((((pySplit text).map pyStrip).filter (fun b => !b.isEmpty) ≠ [] ∧
        split_semantic_beats text =
          ((pySplit text).map pyStrip).filter (fun b => !b.isEmpty)) ∨
      (((pySplit text).map pyStrip).filter (fun b => !b.isEmpty) = [] ∧
        split_semantic_beats text = [pyStrip text])) := by
  have hdef : split_semantic_beats text =
      if (((pySplit text).map pyStrip).filter (fun b => !b.isEmpty)).isEmpty
      then [pyStrip text]
      else ((pySplit text).map pyStrip).filter (fun b => !b.isEmpty) := rfl
  by_cases hemp : (((pySplit text).map pyStrip).filter (fun b => !b.isEmpty)).isEmpty
  · rw [hdef, if_pos hemp]
    refine ⟨by simp, ?_, pySplit_reconstruct text,
      Or.inr ⟨List.isEmpty_iff.mp hemp, rfl⟩⟩
    intro b hb
    rw [List.mem_singleton.mp hb]
    exact pyStrip_idem text
  · rw [hdef, if_neg hemp]
    refine ⟨fun hnil => hemp (by rw [hnil]; rfl), ?_, pySplit_reconstruct text,
      Or.inl ⟨fun hnil => hemp (by rw [hnil]; rfl), rfl⟩⟩
    intro b hb
    have hb' := List.mem_of_mem_filter hb
    obtain ⟨x, -, rfl⟩ := List.mem_map.mp hb'
    exact pyStrip_idem x

/- ────────────────────────────────────────────
   Theorems for C9 and C10
   ──────────────────────────────────────────── -/

/-- C9: when the deduplicator runs without the explicit `--delete` opt-in
(preview mode, the default), detection and reporting occur but neither the
catalog nor any on-disk clip file is mutated: the resulting library state is
exactly the input state, for every duplicate list the detector may produce. -/
theorem c9_preview_no_mutation (dupes : List DupEntry) (st : LibraryState) :
    dedup_resolve false dupes st = st := by
  unfold dedup_resolve
  by_cases h : dupes.isEmpty <;> simp [h]

/-- C10: after every catalog write — by the catalog builder at the end of a
processing run, and by the deduplicator in delete mode (which only writes when
the duplicate list is non-empty) — the persisted catalog satisfies
`total_clips = clips.length`. -/
theorem c10_total_clips_invariant (all_clips : List CatClip)
    (dupes : List DupEntry) (st : LibraryState) (hd : dupes ≠ []) :
    (build_catalog all_clips).total_clips = (build_catalog all_clips).clips.length ∧
    (dedup_resolve true dupes st).catalog.total_clips =
      (dedup_resolve true dupes st).catalog.clips.length := by
  refine ⟨rfl, ?_⟩
  unfold dedup_resolve
  simp [List.isEmpty_iff, hd]

/-- Witness for C10 at a concrete duplicate list and library state. -/
theorem c10_total_clips_invariant_witness :
    (build_catalog []).total_clips = (build_catalog []).clips.length ∧
    (dedup_resolve true
        [{ keep := ⟨[], [], [], 1⟩, remove := ⟨[], [], [], 1⟩,
           similarity := 1, dtype := [] }]
        { catalog := { total_clips := 0, clips := [] }, disk_files := [] }).catalog.total_clips =
      (dedup_resolve true
        [{ keep := ⟨[], [], [], 1⟩, remove := ⟨[], [], [], 1⟩,
           similarity := 1, dtype := [] }]
        { catalog := { total_clips := 0, clips := [] }, disk_files := [] }).catalog.clips.length :=
  c10_total_clips_invariant []
    [{ keep := ⟨[], [], [], 1⟩, remove := ⟨[], [], [], 1⟩,
       similarity := 1, dtype := [] }]
    { catalog := { total_clips := 0, clips := [] }, disk_files := [] }
    (by decide)

/- ────────────────────────────────────────────
   Theorems for C2
   ──────────────────────────────────────────── -/

/-- C2 counterexample: the claim asserts
`is_hallucination("ha ha ha ha ha ha") == True` and
`is_hallucination("please subscribe and hit the bell") == True`, but both
strings are shorter than 50 characters, so the length guard — which the same
claim also asserts — makes `is_whisper_hallucination` return `False` on
them. -/
theorem c2_counterexample :
    is_whisper_hallucination ("ha ha ha ha ha ha".data) = false ∧
    is_whisper_hallucination ("please subscribe and hit the bell".data) = false := by
  constructor <;> decide

/-- C2 amended: `is_whisper_hallucination` returns `False` for every text
shorter than 50 characters; in particular it returns `False` on `""`, on
`"ha ha ha ha ha ha"` and on `"please subscribe and hit the bell"` (both
under 50 characters, contrary to the claim's `True`), and a normal 80-character
sentence with no repetition also yields `False`. -/
theorem c2_is_whisper_hallucination_amended (text : List Char)
    (h : text.length < 50) :
    is_whisper_hallucination text = false ∧
    is_whisper_hallucination [] = false ∧
    is_whisper_hallucination ("ha ha ha ha ha ha".data) = false ∧
    is_whisper_hallucination ("please subscribe and hit the bell".data) = false ∧
    is_whisper_hallucination (("The quick brown fox jumped over the lazy " ++
      "dog while the cats dozed on warm roofs.").data) = false := by
  refine ⟨?_, by decide, by decide, by decide, by decide⟩
  unfold is_whisper_hallucination
  rw [if_pos h]

/-- Witness for C2 at a concrete short text. -/
theorem c2_is_whisper_hallucination_amended_witness :
    is_whisper_hallucination ("hi there".data) = false ∧
    is_whisper_hallucination [] = false ∧
    is_whisper_hallucination ("ha ha ha ha ha ha".data) = false ∧
    is_whisper_hallucination ("please subscribe and hit the bell".data) = false ∧
    is_whisper_hallucination (("The quick brown fox jumped over the lazy " ++
      "dog while the cats dozed on warm roofs.").data) = false :=
  c2_is_whisper_hallucination_amended ("hi there".data) (by decide)

/- ────────────────────────────────────────────
   Theorems for C8
   ──────────────────────────────────────────── -/

theorem cleanHall_inner_eq_none {text : List Char} {L : ℕ}
    (hL2 : 2 ≤ L) (hL20 : L ≤ 20) (h : ∀ i, ¬ cleanHit text L i) :
    (List.range (text.length - L * 2)).findSome? (fun i =>
      if (text.drop i).take L = (text.drop (i + L)).take L ∧
          pyStrip (text.take i) ≠ []
      then some (pyStrip (text.take i)) else none) = none := by
  rw [List.findSome?_eq_none_iff]
  intro i hi
  have hc : ¬((text.drop i).take L = (text.drop (i + L)).take L ∧
      pyStrip (text.take i) ≠ []) := by
    intro hc
    exact h i ⟨hL2, hL20, List.mem_range.mp hi, hc.1, hc.2⟩
  rw [if_neg hc]

/-- C8 amended: `clean_hallucination` scans chunk lengths `L = 2..20` in
increasing order and, for each `L`, the start positions
`i ∈ range(len(text) - 2L)` left to right; at the first `(L, i)` in that scan
order where the chunk repeats immediately and the preceding prefix is
non-empty after trimming, it returns that trimmed prefix; if the scan finds
nothing (in particular when every immediate repeat has an empty trimmed
prefix, e.g. a repeat at the very start of a text with no later repeat), it
returns the first 100 characters trimmed.  The scan is ordered by length
first, not by position, and an early repeat with empty prefix does not force
the fallback when a later scanned repeat exists. -/
theorem c8_clean_hallucination_amended (text : List Char) :
    ((∀ L i, ¬ cleanHit text L i) →
      clean_hallucination text = pyStrip (text.take 100)) ∧
    (∀ L i, cleanHit text L i →
      (∀ L' < 21, ∀ i' < text.length, cleanHit text L' i' →
        L < L' ∨ (L = L' ∧ i ≤ i')) →
      clean_hallucination text = pyStrip (text.take i)) := by
  constructor
  · intro hno
    have houter : (List.range' 2 19).findSome? (fun L =>
        (List.range (text.length - L * 2)).findSome? fun i =>
          if (text.drop i).take L = (text.drop (i + L)).take L ∧
              pyStrip (text.take i) ≠ []
          then some (pyStrip (text.take i)) else none) = none := by
      rw [List.findSome?_eq_none_iff]
      intro L hL
      obtain ⟨j, hj, rfl⟩ := List.mem_range'.mp hL
      exact cleanHall_inner_eq_none (by omega) (by omega) (hno _)
    unfold clean_hallucination
    rw [houter]
  · intro L i hit hmin
    obtain ⟨hL2, hL20, hi, hchunk, hne⟩ := hit
    have hitext : i < text.length := lt_of_lt_of_le hi (Nat.sub_le _ _)
    have hinner : (List.range (text.length - L * 2)).findSome? (fun i' =>
        if (text.drop i').take L = (text.drop (i' + L)).take L ∧
            pyStrip (text.take i') ≠ []
        then some (pyStrip (text.take i')) else none) =
        some (pyStrip (text.take i)) := by
      have hsplit : List.range (text.length - L * 2) =
          List.range' 0 i ++ List.range' i ((text.length - L * 2) - i) := by
        rw [List.range_eq_range']
        have := List.range'_append 0 i ((text.length - L * 2) - i) 1
        rw [show 0 + 1 * i = i by omega,
          show ((text.length - L * 2) - i) + i = text.length - L * 2 by omega]
          at this
        exact this.symm
      rw [hsplit, List.findSome?_append]
      have hfirst : (List.range' 0 i).findSome? (fun i' =>
          if (text.drop i').take L = (text.drop (i' + L)).take L ∧
              pyStrip (text.take i') ≠ []
          then some (pyStrip (text.take i')) else none) = none := by
        rw [List.findSome?_eq_none_iff]
        intro i' hi'
        obtain ⟨j, hj, rfl⟩ := List.mem_range'.mp hi'
        have hc : ¬((text.drop (0 + 1 * j)).take L =
            (text.drop ((0 + 1 * j) + L)).take L ∧
            pyStrip (text.take (0 + 1 * j)) ≠ []) := by
          intro hc
          have hhit : cleanHit text L (0 + 1 * j) :=
            ⟨hL2, hL20, by omega, hc.1, hc.2⟩
          have hjt : 0 + 1 * j < text.length := by
            have := hhit.2.2.1
            omega
          rcases hmin L (by omega) (0 + 1 * j) hjt hhit with h | ⟨-, h⟩
          · omega
          · omega
        rw [if_neg hc]
      rw [hfirst, Option.none_or,
        show (text.length - L * 2) - i = (((text.length - L * 2) - i - 1) + 1)
          by omega,
        List.range'_succ, List.findSome?_cons, if_pos ⟨hchunk, hne⟩]
    have houter : (List.range' 2 19).findSome? (fun L' =>
        (List.range (text.length - L' * 2)).findSome? fun i' =>
          if (text.drop i').take L' = (text.drop (i' + L')).take L' ∧
              pyStrip (text.take i') ≠ []
          then some (pyStrip (text.take i')) else none) =
        some (pyStrip (text.take i)) := by
      have hsplit : List.range' 2 19 =
          List.range' 2 (L - 2) ++ List.range' L (21 - L) := by
        have := List.range'_append 2 (L - 2) (21 - L) 1
        rw [show 2 + 1 * (L - 2) = L by omega,
          show (21 - L) + (L - 2) = 19 by omega] at this
        exact this.symm
      rw [hsplit, List.findSome?_append]
      have hfirst : (List.range' 2 (L - 2)).findSome? (fun L' =>
          (List.range (text.length - L' * 2)).findSome? fun i' =>
            if (text.drop i').take L' = (text.drop (i' + L')).take L' ∧
                pyStrip (text.take i') ≠ []
            then some (pyStrip (text.take i')) else none) = none := by
        rw [List.findSome?_eq_none_iff]
        intro L' hL'
        obtain ⟨j, hj, rfl⟩ := List.mem_range'.mp hL'
        apply cleanHall_inner_eq_none (by omega) (by omega)
        intro i' hhit
        have hit' : i' < text.length := lt_of_lt_of_le hhit.2.2.1 (Nat.sub_le _ _)
        rcases hmin (2 + 1 * j) (by omega) i' hit' hhit with h | ⟨h, -⟩
        · omega
        · omega
      rw [hfirst, Option.none_or,
        show 21 - L = ((21 - L - 1) + 1) by omega,
        List.range'_succ, List.findSome?_cons, hinner]
    unfold clean_hallucination
    rw [houter]

/-- Witness for C8: on `"haha abab xy"` the minimal scanned hit is the chunk
`"ab"` at position 5 (the repeat at position 0 has an empty prefix and is
skipped), so the function returns the stripped prefix before position 5. -/
theorem c8_clean_hallucination_amended_witness :
    clean_hallucination ("haha abab xy".data) =
      pyStrip (("haha abab xy".data).take 5) :=
  (c8_clean_hallucination_amended ("haha abab xy".data)).2 2 5
    (by decide) (by decide)

/-- C8 counterexample: on `"haha abab xy"` the earliest immediate repeat
(`"ha"` at position 0) has an empty prefix, so by the claim the
first-100-characters fallback should fire and return the whole trimmed text;
instead the scan continues and returns `"haha"`, the prefix before the later
repeat `"abab"`. -/
theorem c8_counterexample :
    clean_hallucination ("haha abab xy".data) = "haha".data ∧
    pyStrip (("haha abab xy".data).take 100) ≠ "haha".data := by
  constructor <;> decide

/- ────────────────────────────────────────────
   Theorems for C1 and C4
   ──────────────────────────────────────────── -/

theorem pairwise_orderedInsert_key {α : Type} (key : α → ℚ) (Q : α → α → Prop)
    (x : α) : ∀ l : List α,
    l.Pairwise (fun a b => key b ≤ key a ∧ (key a = key b → Q a b)) →
    (∀ y ∈ l, Q x y) →
    (l.orderedInsert (fun a b => key b ≤ key a) x).Pairwise
      (fun a b => key b ≤ key a ∧ (key a = key b → Q a b))
  | [], _, _ => List.pairwise_singleton _ x
  | y :: ys, hpw, hxq => by
    rw [List.orderedInsert]
    obtain ⟨hy, hys⟩ := List.pairwise_cons.mp hpw
    by_cases hxy : key y ≤ key x
    · rw [if_pos hxy]
      refine List.pairwise_cons.mpr ⟨?_, hpw⟩
      intro z hz
      rcases List.mem_cons.mp hz with rfl | hz
      · exact ⟨hxy, fun _ => hxq z (List.mem_cons_self _ _)⟩
      · obtain ⟨hzy, -⟩ := hy z hz
        exact ⟨le_trans hzy hxy, fun _ => hxq z (List.mem_cons_of_mem _ hz)⟩
    · rw [if_neg hxy]
      have hlt : key x < key y := lt_of_not_le hxy
      refine List.pairwise_cons.mpr ⟨?_, ?_⟩
      · intro z hz
        rcases (List.mem_orderedInsert _).mp hz with rfl | hz
        · exact ⟨le_of_lt hlt, fun he => absurd he (ne_of_gt hlt)⟩
        · exact hy z hz
      · exact pairwise_orderedInsert_key key Q x ys hys
          fun z hz => hxq z (List.mem_cons_of_mem _ hz)

theorem pairwise_insertionSort_key {α : Type} (key : α → ℚ) (Q : α → α → Prop) :
    ∀ l : List α, l.Pairwise Q →
    (l.insertionSort fun a b => key b ≤ key a).Pairwise
      (fun a b => key b ≤ key a ∧ (key a = key b → Q a b))
  | [], _ => List.Pairwise.nil
  | x :: xs, h => by
    rw [List.insertionSort]
    obtain ⟨hx, hxs⟩ := List.pairwise_cons.mp h
    exact pairwise_orderedInsert_key key Q x _
      (pairwise_insertionSort_key key Q xs hxs)
      fun y hy => hx y ((List.mem_insertionSort _).mp hy)

/-- C1: for every similarity assignment, clip list, `top_n` and
`min_similarity`, `find_best_clips` returns at most `top_n` clips, each with
similarity at least `min_similarity`, in non-increasing similarity order;
and for any relation `Q` holding along the original catalog order, clips of
equal similarity in the result still satisfy `Q` pairwise — similarity ties
are broken by catalog order (the sort is stable). -/
theorem c1_find_best_clips_spec {α : Type} (sim : α → ℚ) (clips : List α)
    (top_n : ℕ) (min_similarity : ℚ) (Q : α → α → Prop)
    (hQ : clips.Pairwise Q) :
    (find_best_clips sim clips top_n min_similarity).length ≤ top_n ∧
    (∀ c ∈ find_best_clips sim clips top_n min_similarity,
      min_similarity ≤ sim c) ∧
    (find_best_clips sim clips top_n min_similarity).Pairwise
      (fun a b => sim b ≤ sim a) ∧
    (find_best_clips sim clips top_n min_similarity).Pairwise
      (fun a b => sim a = sim b → Q a b) := by
  have hscored : (clips.map fun clip => (sim clip, clip)).Pairwise
      (fun p q : ℚ × α => Q p.2 q.2) := List.pairwise_map.mpr hQ
  have hsortPW := pairwise_insertionSort_key (Prod.fst)
    (fun p q : ℚ × α => Q p.2 q.2) _ hscored
  have hkey : ∀ p ∈ (clips.map fun clip => (sim clip, clip)).insertionSort
      fun p q : ℚ × α => q.1 ≤ p.1, p.1 = sim p.2 := by
    intro p hp
    obtain ⟨c, -, rfl⟩ := List.mem_map.mp ((List.mem_insertionSort _).mp hp)
    rfl
  have hfiltPW := hsortPW.filter fun p : ℚ × α => decide (min_similarity ≤ p.1)
  have hfiltkey : ∀ p ∈ ((clips.map fun clip => (sim clip, clip)).insertionSort
      fun p q : ℚ × α => q.1 ≤ p.1).filter
        (fun p => decide (min_similarity ≤ p.1)), p.1 = sim p.2 :=
    fun p hp => hkey p (List.mem_of_mem_filter hp)
  refine ⟨?_, ?_, ?_, ?_⟩
  · exact List.length_take_le _ _
  · intro c hc
    have hc' := List.mem_of_mem_take hc
    obtain ⟨p, hp, rfl⟩ := List.mem_map.mp hc'
    have hmin : min_similarity ≤ p.1 :=
      of_decide_eq_true (List.mem_filter.mp hp).2
    exact le_trans hmin (le_of_eq (hfiltkey p hp))
  · refine List.Pairwise.sublist (List.take_sublist _ _) ?_
    refine List.pairwise_map.mpr ?_
    refine hfiltPW.imp_of_mem ?_
    intro p q hp hq hpq
    rw [← hfiltkey p hp, ← hfiltkey q hq]
    exact hpq.1
  · refine List.Pairwise.sublist (List.take_sublist _ _) ?_
    refine List.pairwise_map.mpr ?_
    refine hfiltPW.imp_of_mem ?_
    intro p q hp hq hpq he
    exact hpq.2 (by rw [hfiltkey p hp, hfiltkey q hq]; exact he)

/-- Witness for C1 at a concrete catalog of three clips (indices 0, 1, 2)
with similarities 3, 1, 1, catalog order as `Q`. -/
theorem c1_find_best_clips_spec_witness :
    (find_best_clips (fun n : ℕ => [(3 : ℚ), 1, 1].getD n 0) [0, 1, 2] 2
      1).length ≤ 2 ∧
    (∀ c ∈ find_best_clips (fun n : ℕ => [(3 : ℚ), 1, 1].getD n 0) [0, 1, 2]
      2 1, (1 : ℚ) ≤ [(3 : ℚ), 1, 1].getD c 0) ∧
    (find_best_clips (fun n : ℕ => [(3 : ℚ), 1, 1].getD n 0) [0, 1, 2] 2
      1).Pairwise (fun a b =>
        [(3 : ℚ), 1, 1].getD b 0 ≤ [(3 : ℚ), 1, 1].getD a 0) ∧
    (find_best_clips (fun n : ℕ => [(3 : ℚ), 1, 1].getD n 0) [0, 1, 2] 2
      1).Pairwise (fun a b =>
        [(3 : ℚ), 1, 1].getD a 0 = [(3 : ℚ), 1, 1].getD b 0 → a < b) :=
  c1_find_best_clips_spec (fun n : ℕ => [(3 : ℚ), 1, 1].getD n 0) [0, 1, 2]
    2 1 (· < ·) (by decide)

theorem find_best_clips_ne_nil {α : Type} (sim : α → ℚ) (clips : List α)
    {top_n : ℕ} (ht : 1 ≤ top_n) {min_similarity : ℚ}
    (h : ∃ c ∈ clips, min_similarity ≤ sim c) :
    find_best_clips sim clips top_n min_similarity ≠ [] := by
  obtain ⟨c, hc, hsim⟩ := h
  have hmem : (sim c, c) ∈ ((clips.map fun clip =>
      (sim clip, clip)).insertionSort fun p q : ℚ × α => q.1 ≤ p.1).filter
        fun p => decide (min_similarity ≤ p.1) := by
    apply List.mem_filter.mpr
    refine ⟨(List.mem_insertionSort _).mpr ?_, by simpa using hsim⟩
    exact List.mem_map.mpr ⟨c, hc, rfl⟩
  intro hnil
  rcases (List.take_eq_nil_iff).mp hnil with h0 | hmapnil
  · omega
  · rw [List.map_eq_nil_iff] at hmapnil
    rw [hmapnil] at hmem
    exact List.not_mem_nil _ hmem

/-- C4 counterexample: with a single-clip catalog whose similarity to the
beat is negative (cosine similarity ranges over [-1, 1]), the fallback
invocation `find_best_clips(beat, clips, top_n=1, min_similarity=0)` filters
the clip out (`-1 < 0`) and returns nothing, and the playback driver's
per-beat selection ends up empty — contradicting the claim that a non-empty
catalog always yields at least one clip. -/
theorem c4_counterexample :
    find_best_clips (fun _ : ℕ => (-1 : ℚ)) [0] 1 0 = [] ∧
    selectClipsForBeat (fun _ : ℕ => (-1 : ℚ)) [0] 3 1 = [] := by
  constructor <;> decide

/-- C4 amended: the fallback invocation returns at least one clip — and the
per-beat selection is therefore non-empty — whenever some clip's similarity
to the beat is non-negative (with all similarities strictly negative, the
`min_similarity = 0` filter removes every clip and the fallback is empty
too). -/
theorem c4_fallback_amended {α : Type} (sim : α → ℚ) (clips : List α)
    (top_n : ℕ) (semantic_threshold : ℚ) (h : ∃ c ∈ clips, 0 ≤ sim c) :
    find_best_clips sim clips 1 0 ≠ [] ∧
    selectClipsForBeat sim clips top_n semantic_threshold ≠ [] := by
  have hfb := find_best_clips_ne_nil sim clips (le_refl 1) h
  refine ⟨hfb, ?_⟩
  unfold selectClipsForBeat
  by_cases hsel : (find_best_clips sim clips top_n semantic_threshold).isEmpty
  · rw [if_pos hsel]
    exact hfb
  · rw [if_neg hsel]
    intro hnil
    rw [hnil] at hsel
    exact hsel rfl

/-- Witness for C4 at a concrete single-clip catalog with similarity 1. -/
theorem c4_fallback_amended_witness :
    find_best_clips (fun _ : ℕ => (1 : ℚ)) [0] 1 0 ≠ [] ∧
    selectClipsForBeat (fun _ : ℕ => (1 : ℚ)) [0] 3 1 ≠ [] :=
  c4_fallback_amended (fun _ : ℕ => (1 : ℚ)) [0] 3 1 ⟨0, by decide, by decide⟩

/- ────────────────────────────────────────────
   Theorems for C3
   ──────────────────────────────────────────── -/

theorem head_start_le_lastStop : ∀ (l : List WhisperWord) (c0 : WhisperWord),
    l.head? = some c0 → (∀ w ∈ l, w.start ≤ w.stop) →
    (l.Chain' fun a b => a.stop ≤ b.start) →
    c0.start ≤ ((l.getLast?).map fun w => w.stop).getD 0
  | [], c0, h, _, _ => by simp at h
  | [x], c0, h, hws, _ => by
    simp only [List.head?_cons, Option.some.injEq] at h
    subst h
    simpa using hws x (by simp)
  | x :: y :: t, c0, h, hws, hch => by
    simp only [List.head?_cons, Option.some.injEq] at h
    subst h
    obtain ⟨hxy, hch'⟩ := List.chain'_cons.mp hch
    have ih := head_start_le_lastStop (y :: t) y rfl
      (fun w hw => hws w (List.mem_cons_of_mem _ hw)) hch'
    rw [List.getLast?_cons_cons]
    calc x.start ≤ x.stop := hws x (by simp)
      _ ≤ y.start := hxy
      _ ≤ _ := ih

theorem splitWordsLoop_head_start (max_dur : ℚ) :
    ∀ (ws current : List WhisperWord) (cs : ℚ) (s0 : SubSegment),
    (splitWordsLoop max_dur ws current cs).head? = some s0 → s0.start = cs
  | [], current, cs, s0, h => by
    unfold splitWordsLoop at h
    by_cases hc : current.isEmpty
    · rw [if_pos hc] at h
      simp at h
    · rw [if_neg hc] at h
      simp only [List.head?_cons, Option.some.injEq] at h
      rw [← h]
      rfl
  | w :: ws', current, cs, s0, h => by
    unfold splitWordsLoop at h
    by_cases hc : (¬ current.isEmpty = true) ∧ max_dur < w.stop - cs
    · rw [if_pos hc] at h
      simp only [List.head?_cons, Option.some.injEq] at h
      rw [← h]
      rfl
    · rw [if_neg hc] at h
      exact splitWordsLoop_head_start max_dur ws' (current ++ [w]) cs s0 h

theorem splitWordsLoop_contig (max_dur : ℚ) :
    ∀ (ws current : List WhisperWord) (cs : ℚ),
    ((current ++ ws).Chain' fun a b => a.stop = b.start) →
    (splitWordsLoop max_dur ws current cs).Chain' fun s t => s.stop = t.start
  | [], current, cs, _ => by
    unfold splitWordsLoop
    by_cases hc : current.isEmpty
    · rw [if_pos hc]
      exact List.chain'_nil
    · rw [if_neg hc]
      exact List.chain'_singleton _
  | w :: ws', current, cs, hch => by
    unfold splitWordsLoop
    by_cases hc : (¬ current.isEmpty = true) ∧ max_dur < w.stop - cs
    · rw [if_pos hc]
      obtain ⟨-, hch2, hlast⟩ := List.chain'_append.mp hch
      refine List.chain'_cons'.mpr ⟨?_, ?_⟩
      · intro s0 hs0
        rw [splitWordsLoop_head_start max_dur ws' [w] w.start s0 hs0]
        rcases hcur : current.getLast? with _ | x
        · rcases current with _ | ⟨c, cur⟩
          · simp at hc
          · rw [List.getLast?_eq_none_iff] at hcur
            cases hcur
        · have := hlast x hcur w (by simp)
          simp only [closeChunk, hcur, Option.map_some, Option.getD_some]
          exact this
      · exact splitWordsLoop_contig max_dur ws' [w] w.start (by simpa using hch2)
    · rw [if_neg hc]
      refine splitWordsLoop_contig max_dur ws' (current ++ [w]) cs ?_
      rw [List.append_assoc, List.singleton_append]
      exact hch

theorem chain'_stop_start_pairwise : ∀ {l : List SubSegment},
    (∀ s ∈ l, s.start ≤ s.stop) →
    (l.Chain' fun s t => s.stop ≤ t.start) →
    l.Pairwise fun s t => s.stop ≤ t.start
  | [], _, _ => List.Pairwise.nil
  | [_], _, _ => List.pairwise_singleton _ _
  | a :: b :: t, hws, hch => by
    obtain ⟨hab, hch'⟩ := List.chain'_cons.mp hch
    have ihp := chain'_stop_start_pairwise
      (fun s hs => hws s (List.mem_cons_of_mem _ hs)) hch'
    refine List.pairwise_cons.mpr ⟨?_, ihp⟩
    intro u hu
    rcases List.mem_cons.mp hu with rfl | hu
    · exact hab
    · have hbu := (List.pairwise_cons.mp ihp).1 u hu
      calc a.stop ≤ b.start := hab
        _ ≤ b.stop := hws b (by simp)
        _ ≤ u.start := hbu

theorem splitWordsLoop_spec (max_dur : ℚ) (ws : List WhisperWord) :
    ∀ (current : List WhisperWord) (cs : ℚ),
    (∀ w ∈ current ++ ws, w.start ≤ w.stop) →
    ((current ++ ws).Chain' fun a b => a.stop ≤ b.start) →
    (∀ w0, (current ++ ws).head? = some w0 → cs = w0.start) →
    (2 ≤ current.length →
      ((current.getLast?).map fun w => w.stop).getD 0 ≤ cs + max_dur) →
    ((splitWordsLoop max_dur ws current cs).Chain'
        fun s t => s.stop ≤ t.start) ∧
    (∀ s ∈ splitWordsLoop max_dur ws current cs, s.start ≤ s.stop) ∧
    (∀ s ∈ splitWordsLoop max_dur ws current cs,
      s.stop - s.start ≤ max_dur ∨
        ∃ w ∈ current ++ ws, s.start = w.start ∧ s.stop = w.stop) := by
  induction ws with
  | nil =>
    intro current cs h1 h2 h3 h4
    unfold splitWordsLoop
    by_cases hc : current.isEmpty
    · rw [if_pos hc]
      exact ⟨List.chain'_nil, by simp, by simp⟩
    · rw [if_neg hc]
      rcases hcur : current with _ | ⟨c0, rest⟩
      · rw [hcur] at hc
        simp at hc
      rw [← hcur]
      have hhead : current.head? = some c0 := by rw [hcur]; rfl
      have hcs : cs = c0.start := h3 c0 (by rw [List.append_nil]; exact hhead)
      have hlast0 : c0.start ≤ ((current.getLast?).map fun w => w.stop).getD 0 :=
        head_start_le_lastStop current c0 hhead
          (fun w hw => h1 w (by rw [List.append_nil]; exact hw))
          (by have := h2; rw [List.append_nil] at this; exact this)
      refine ⟨List.chain'_singleton _, ?_, ?_⟩
      · intro s hs
        rcases List.mem_singleton.mp hs with rfl
        show cs ≤ ((current.getLast?).map fun w => w.stop).getD 0
        rw [hcs]
        exact hlast0
      · intro s hs
        rcases List.mem_singleton.mp hs with rfl
        rcases rest with _ | ⟨c1, rest'⟩
        · refine Or.inr ⟨c0, by rw [List.append_nil, hcur]; simp, ?_, ?_⟩
          · show cs = c0.start
            exact hcs
          · show ((current.getLast?).map fun w => w.stop).getD 0 = c0.stop
            rw [hcur]
            rfl
        · refine Or.inl ?_
          have h4' := h4 (by rw [hcur]; simp only [List.length_cons]; omega)
          show ((current.getLast?).map fun w => w.stop).getD 0 - cs ≤ max_dur
          linarith
  | cons w ws' ih =>
    intro current cs h1 h2 h3 h4
    unfold splitWordsLoop
    by_cases hc : (¬ current.isEmpty = true) ∧ max_dur < w.stop - cs
    · rw [if_pos hc]
      rcases hcur : current with _ | ⟨c0, rest⟩
      · rw [hcur] at hc
        simp at hc
      rw [← hcur]
      obtain ⟨hch1, hch2, hlast⟩ := List.chain'_append.mp h2
      have hrec := ih [w] w.start
        (fun x hx => h1 x (by
          rcases List.mem_cons.mp (by simpa using hx) with rfl | hx'
          · exact List.mem_append_right _ (List.mem_cons_self _ _)
          · exact List.mem_append_right _ (List.mem_cons_of_mem _ hx')))
        (by simpa using hch2)
        (fun w0 hw0 => by
          simp only [List.singleton_append, List.head?_cons,
            Option.some.injEq] at hw0
          rw [hw0])
        (by intro habs; simp at habs)
      have hhead : current.head? = some c0 := by rw [hcur]; rfl
      have hcs : cs = c0.start := by
        refine h3 c0 ?_
        rw [hcur]
        rfl
      have hstople : ∀ x, current.getLast? = some x → x.stop ≤ w.start :=
        fun x hx => hlast x hx w (by simp)
      have hclose_le : (closeChunk cs current).stop ≤ w.start := by
        rcases hgl : current.getLast? with _ | x
        · rw [List.getLast?_eq_none_iff] at hgl
          rw [hgl] at hcur
          cases hcur
        · simp only [closeChunk, hgl, Option.map_some, Option.getD_some]
          exact hstople x hgl
      refine ⟨?_, ?_, ?_⟩
      · refine List.chain'_cons'.mpr ⟨?_, hrec.1⟩
        intro s0 hs0
        rw [splitWordsLoop_head_start max_dur ws' [w] w.start s0 hs0]
        exact hclose_le
      · intro s hs
        rcases List.mem_cons.mp hs with rfl | hs'
        · show cs ≤ ((current.getLast?).map fun x => x.stop).getD 0
          rw [hcs]
          exact head_start_le_lastStop current c0 hhead
            (fun x hx => h1 x (List.mem_append_left _ hx))
            hch1
        · exact hrec.2.1 s hs'
      · intro s hs
        rcases List.mem_cons.mp hs with rfl | hs'
        · rcases rest with _ | ⟨c1, rest'⟩
          · refine Or.inr ⟨c0, List.mem_append_left _ (by rw [hcur]; simp),
              ?_, ?_⟩
            · show cs = c0.start
              exact hcs
            · show ((current.getLast?).map fun x => x.stop).getD 0 = c0.stop
              rw [hcur]
              rfl
          · refine Or.inl ?_
            have h4' := h4 (by rw [hcur]; simp only [List.length_cons]; omega)
            show ((current.getLast?).map fun x => x.stop).getD 0 - cs ≤ max_dur
            linarith
        · rcases hrec.2.2 s hs' with hd | ⟨x, hx, hxe⟩
          · exact Or.inl hd
          · refine Or.inr ⟨x, ?_, hxe⟩
            rcases List.mem_cons.mp (by simpa using hx) with rfl | hx'
            · exact List.mem_append_right _ (List.mem_cons_self _ _)
            · exact List.mem_append_right _ (List.mem_cons_of_mem _ hx')
    · rw [if_neg hc]
      have hlist : (current ++ [w]) ++ ws' = current ++ w :: ws' := by
        rw [List.append_assoc, List.singleton_append]
      have hrec := ih (current ++ [w]) cs
        (by rw [hlist]; exact h1)
        (by rw [hlist]; exact h2)
        (by rw [hlist]; exact h3)
        (by
          intro hlen
          have hgl : (current ++ [w]).getLast? = some w := by
            rw [List.getLast?_append]
            rfl
          rw [hgl]
          show w.stop ≤ cs + max_dur
          rcases not_and_or.mp hc with hc1 | hc2
          · exfalso
            have : current.isEmpty = true := by
              by_contra hne
              exact hc1 (by simpa using hne)
            rw [List.isEmpty_iff] at this
            rw [this] at hlen
            simp at hlen
          · linarith [not_lt.mp hc2])
      refine ⟨hrec.1, hrec.2.1, ?_⟩
      intro s hs
      rcases hrec.2.2 s hs with hd | ⟨x, hx, hxe⟩
      · exact Or.inl hd
      · refine Or.inr ⟨x, ?_, hxe⟩
        rw [← hlist]
        exact hx

/-- C3 amended: for every segment with non-empty, chronologically ordered
word timings (each word spans forward, consecutive words do not overlap) and
every `max_duration`, each sub-segment emitted by `split_segment_by_words`
either has `end - start ≤ max_duration` or spans exactly one word whose own
duration exceeds it — such an over-long sub-segment need not be the final
one; the sub-segments are well-formed (`start ≤ end`), non-overlapping and
ordered by start time, and they are contiguous whenever the word timings
themselves are contiguous. -/
theorem c3_split_segment_by_words_amended (seg : WSegment) (max_dur : ℚ)
    (hw : seg.words ≠ [])
    (hws : ∀ w ∈ seg.words, w.start ≤ w.stop)
    (hch : seg.words.Chain' fun a b => a.stop ≤ b.start) :
    (∀ s ∈ split_segment_by_words seg max_dur,
      s.stop - s.start ≤ max_dur ∨
        ∃ w ∈ seg.words, s.start = w.start ∧ s.stop = w.stop) ∧
    (∀ s ∈ split_segment_by_words seg max_dur, s.start ≤ s.stop) ∧
    ((split_segment_by_words seg max_dur).Pairwise
      fun s t => s.stop ≤ t.start) ∧
    ((seg.words.Chain' fun a b => a.stop = b.start) →
      (split_segment_by_words seg max_dur).Chain'
        fun s t => s.stop = t.start) := by
  rcases hwords : seg.words with _ | ⟨w0, rest⟩
  · exact absurd hwords hw
  have hdef : split_segment_by_words seg max_dur =
      splitWordsLoop max_dur (w0 :: rest) [] w0.start := by
    simp only [split_segment_by_words, hwords]
  have hspec := splitWordsLoop_spec max_dur (w0 :: rest) [] w0.start
    (by rw [List.nil_append, ← hwords]; exact hws)
    (by rw [List.nil_append, ← hwords]; exact hch)
    (fun x hx => by
      simp only [List.nil_append, List.head?_cons, Option.some.injEq] at hx
      rw [hx])
    (by intro habs; simp at habs)
  rw [hdef]
  refine ⟨hspec.2.2, hspec.2.1, ?_, ?_⟩
  · exact chain'_stop_start_pairwise hspec.2.1 hspec.1
  · intro hcontig
    refine splitWordsLoop_contig max_dur (w0 :: rest) [] w0.start ?_
    rw [List.nil_append]
    exact hcontig

/-- Witness for C3 at a concrete two-word segment. -/
theorem c3_split_segment_by_words_amended_witness :
    (∀ s ∈ split_segment_by_words
        { start := 0, stop := 2, text := "a b".data,
          words := [⟨"a".data, 0, 1⟩, ⟨"b".data, 1, 2⟩] } 5,
      s.stop - s.start ≤ 5 ∨
        ∃ w ∈ [(⟨"a".data, 0, 1⟩ : WhisperWord), ⟨"b".data, 1, 2⟩],
          s.start = w.start ∧ s.stop = w.stop) ∧
    (∀ s ∈ split_segment_by_words
        { start := 0, stop := 2, text := "a b".data,
          words := [⟨"a".data, 0, 1⟩, ⟨"b".data, 1, 2⟩] } 5,
      s.start ≤ s.stop) ∧
    ((split_segment_by_words
        { start := 0, stop := 2, text := "a b".data,
          words := [⟨"a".data, 0, 1⟩, ⟨"b".data, 1, 2⟩] } 5).Pairwise
      fun s t => s.stop ≤ t.start) ∧
    (([(⟨"a".data, 0, 1⟩ : WhisperWord), ⟨"b".data, 1, 2⟩].Chain'
        fun a b => a.stop = b.start) →
      (split_segment_by_words
        { start := 0, stop := 2, text := "a b".data,
          words := [⟨"a".data, 0, 1⟩, ⟨"b".data, 1, 2⟩] } 5).Chain'
        fun s t => s.stop = t.start) :=
  c3_split_segment_by_words_amended
    { start := 0, stop := 2, text := "a b".data,
      words := [⟨"a".data, 0, 1⟩, ⟨"b".data, 1, 2⟩] } 5
    (by decide) (by decide) (by simp [List.chain'_cons])

/-- C3 counterexample: with words spanning `[0, 10]` and `[20, 21]` and
`max_duration = 5`, the splitter emits `[(0, 10), (20, 21)]`: the first
sub-segment is not the final one yet exceeds `max_duration` (10 > 5), and the
sub-segments are not contiguous (10 ≠ 20). -/
theorem c3_counterexample :
    ((split_segment_by_words
        { start := 0, stop := 21, text := "a b".data,
          words := [⟨"a".data, 0, 10⟩, ⟨"b".data, 20, 21⟩] } 5).map
      fun s => (s.start, s.stop)) = [(0, 10), (20, 21)] ∧
    ¬ ((10 : ℚ) - 0 ≤ 5) ∧ (10 : ℚ) ≠ 20 := by
  refine ⟨?_, by norm_num, by norm_num⟩
  norm_num [split_segment_by_words, splitWordsLoop, closeChunk, joinWordTexts,
    pyStrip, isPySpace]

/- ────────────────────────────────────────────
   Theorems for C5
   ──────────────────────────────────────────── -/

theorem zipWith_mul_comm : ∀ a b : List ℝ,
    List.zipWith (· * ·) a b = List.zipWith (· * ·) b a
  | [], b => by cases b <;> rfl
  | _ :: _, [] => rfl
  | x :: a, y :: b => by
    simp only [List.zipWith_cons_cons, mul_comm, zipWith_mul_comm a b]

theorem mem_zipWith_mul : ∀ {a b : List ℝ} {x : ℝ},
    x ∈ List.zipWith (· * ·) a b → ∃ u ∈ a, ∃ v ∈ b, x = u * v
  | [], b, x, h => by simp at h
  | _ :: _, [], x, h => by simp at h
  | u :: a, v :: b, x, h => by
    rcases List.mem_cons.mp h with rfl | h'
    · exact ⟨u, by simp, v, by simp, rfl⟩
    · obtain ⟨u', hu, v', hv, he⟩ := mem_zipWith_mul h'
      exact ⟨u', List.mem_cons_of_mem _ hu, v', List.mem_cons_of_mem _ hv, he⟩

theorem ssq_nonneg (a : List ℝ) : 0 ≤ (a.map fun x => x * x).sum := by
  apply List.sum_nonneg
  intro t ht
  obtain ⟨u, -, rfl⟩ := List.mem_map.mp ht
  exact mul_self_nonneg u

theorem listNorm_nonneg (a : List ℝ) : 0 ≤ listNorm a := Real.sqrt_nonneg _

theorem listDot_nonneg {a b : List ℝ} (ha : ∀ x ∈ a, 0 ≤ x)
    (hb : ∀ x ∈ b, 0 ≤ x) : 0 ≤ listDot a b := by
  apply List.sum_nonneg
  intro t ht
  obtain ⟨u, hu, v, hv, rfl⟩ := mem_zipWith_mul ht
  exact mul_nonneg (ha u hu) (hb v hv)

theorem listDot_eq_sum_range : ∀ a b : List ℝ,
    listDot a b = ∑ i ∈ Finset.range (min a.length b.length),
      a.getD i 0 * b.getD i 0
  | [], b => by simp [listDot]
  | _ :: _, [] => by simp [listDot]
  | x :: a, y :: b => by
    simp only [listDot, List.zipWith_cons_cons, List.sum_cons,
      List.length_cons]
    rw [Nat.succ_min_succ, Finset.sum_range_succ']
    simp only [List.getD_cons_succ, List.getD_cons_zero]
    rw [← listDot_eq_sum_range a b]
    simp [listDot, add_comm]

theorem ssq_eq_sum_range (a : List ℝ) :
    (a.map fun x => x * x).sum =
      ∑ i ∈ Finset.range a.length, a.getD i 0 ^ 2 := by
  induction a with
  | nil => simp
  | cons x a ih =>
    simp only [List.map_cons, List.sum_cons, List.length_cons]
    rw [Finset.sum_range_succ']
    simp only [List.getD_cons_succ, List.getD_cons_zero]
    rw [← ih]
    ring

theorem listDot_sq_le (a b : List ℝ) :
    listDot a b ^ 2 ≤
      (a.map fun x => x * x).sum * (b.map fun x => x * x).sum := by
  have hcs := Finset.sum_mul_sq_le_sq_mul_sq
    (Finset.range (min a.length b.length))
    (fun i => a.getD i 0) (fun i => b.getD i 0)
  rw [listDot_eq_sum_range]
  refine le_trans hcs ?_
  have hsub : ∀ l : List ℝ, min a.length b.length ≤ l.length →
      ∑ i ∈ Finset.range (min a.length b.length), l.getD i 0 ^ 2 ≤
        (l.map fun x => x * x).sum := by
    intro l hl
    rw [ssq_eq_sum_range]
    refine Finset.sum_le_sum_of_subset_of_nonneg
      (Finset.range_subset.mpr hl) ?_
    intro i hi hni
    positivity
  exact mul_le_mul (hsub a (min_le_left _ _)) (hsub b (min_le_right _ _))
    (Finset.sum_nonneg fun i _ => sq_nonneg _) (ssq_nonneg a)

theorem listDot_le_norm_mul_norm {a b : List ℝ} (hd : 0 ≤ listDot a b) :
    listDot a b ≤ listNorm a * listNorm b := by
  have h1 : listDot a b = Real.sqrt (listDot a b ^ 2) :=
    (Real.sqrt_sq hd).symm
  rw [h1, listNorm, listNorm, ← Real.sqrt_mul (ssq_nonneg a)]
  exact Real.sqrt_le_sqrt (listDot_sq_le a b)

theorem listDot_self_eq_ssq (a : List ℝ) :
    listDot a a = (a.map fun x => x * x).sum := by
  unfold listDot
  rw [List.zipWith_same]

open Classical in
theorem fingerprint_similarity_eq (fp1 fp2 : List (List ℝ)) :
    fingerprint_similarity fp1 fp2 =
      if fp1.length = 0 ∨ fp2.length = 0 then 0
      else if (((min fp1.length fp2.length : ℕ) : ℝ) /
          ((max fp1.length fp2.length : ℕ) : ℝ)) < 1 / 2 then 0
      else if listNorm (fp1.take (min fp1.length fp2.length)).flatten = 0 ∨
          listNorm (fp2.take (min fp1.length fp2.length)).flatten = 0 then 0
      else
        listDot (fp1.take (min fp1.length fp2.length)).flatten
            ((fp2.take (min fp1.length fp2.length)).flatten) /
          (listNorm (fp1.take (min fp1.length fp2.length)).flatten *
            listNorm (fp2.take (min fp1.length fp2.length)).flatten) *
          (((min fp1.length fp2.length : ℕ) : ℝ) /
            ((max fp1.length fp2.length : ℕ) : ℝ)) := rfl

/-- C5 amended: `fingerprint_similarity` is symmetric and, for fingerprints
(entrywise non-negative signatures, as the magnitude spectra produced by
`audio_to_fingerprint` are), its value lies in `[0, 1]`; it returns 0
whenever either signature is empty; and `fingerprint_similarity(a, a)` is
exactly 1 for every non-empty signature `a` of non-zero norm — but not for
the all-zero (yet non-empty) signature a silent clip produces, where it
returns 0 instead. -/
theorem c5_fingerprint_similarity_amended (fp1 fp2 : List (List ℝ))
    (hp1 : ∀ row ∈ fp1, ∀ x ∈ row, 0 ≤ x)
    (hp2 : ∀ row ∈ fp2, ∀ x ∈ row, 0 ≤ x) :
    fingerprint_similarity fp1 fp2 = fingerprint_similarity fp2 fp1 ∧
    (fp1 = [] → fingerprint_similarity fp1 fp2 = 0) ∧
    (fp2 = [] → fingerprint_similarity fp1 fp2 = 0) ∧
    0 ≤ fingerprint_similarity fp1 fp2 ∧
    fingerprint_similarity fp1 fp2 ≤ 1 ∧
    (fp1 ≠ [] → listNorm fp1.flatten ≠ 0 →
      fingerprint_similarity fp1 fp1 = 1) := by
  have hflat1 : ∀ x ∈ (fp1.take (min fp1.length fp2.length)).flatten, 0 ≤ x := by
    intro x hx
    obtain ⟨row, hrow, hxr⟩ := List.mem_flatten.mp hx
    exact hp1 row (List.mem_of_mem_take hrow) x hxr
  have hflat2 : ∀ x ∈ (fp2.take (min fp1.length fp2.length)).flatten, 0 ≤ x := by
    intro x hx
    obtain ⟨row, hrow, hxr⟩ := List.mem_flatten.mp hx
    exact hp2 row (List.mem_of_mem_take hrow) x hxr
  refine ⟨?_, ?_, ?_, ?_, ?_, ?_⟩
  · rw [fingerprint_similarity_eq fp1 fp2, fingerprint_similarity_eq fp2 fp1]
    by_cases h1 : fp1.length = 0 ∨ fp2.length = 0
    · rw [if_pos h1, if_pos h1.symm]
    · rw [if_neg h1,
        if_neg (fun h : fp2.length = 0 ∨ fp1.length = 0 => h1 h.symm),
        min_comm fp2.length fp1.length, max_comm fp2.length fp1.length]
      by_cases h2 : (((min fp1.length fp2.length : ℕ) : ℝ) /
          ((max fp1.length fp2.length : ℕ) : ℝ)) < 1 / 2
      · rw [if_pos h2, if_pos h2]
      · rw [if_neg h2, if_neg h2]
        by_cases h3 : listNorm (fp1.take (min fp1.length fp2.length)).flatten = 0 ∨
            listNorm (fp2.take (min fp1.length fp2.length)).flatten = 0
        · rw [if_pos h3, if_pos h3.symm]
        · rw [if_neg h3,
            if_neg (fun h : listNorm
                  ((fp2.take (min fp1.length fp2.length)).flatten) = 0 ∨
                listNorm ((fp1.take (min fp1.length fp2.length)).flatten) = 0 =>
              h3 h.symm)]
          rw [show listDot ((fp2.take (min fp1.length fp2.length)).flatten)
              ((fp1.take (min fp1.length fp2.length)).flatten) =
              listDot ((fp1.take (min fp1.length fp2.length)).flatten)
              ((fp2.take (min fp1.length fp2.length)).flatten) from by
            unfold listDot
            rw [zipWith_mul_comm]]
          rw [mul_comm (listNorm ((fp2.take (min fp1.length fp2.length)).flatten))
            (listNorm ((fp1.take (min fp1.length fp2.length)).flatten))]
  · intro h
    rw [fingerprint_similarity_eq, if_pos (Or.inl (by simp [h]))]
  · intro h
    rw [fingerprint_similarity_eq, if_pos (Or.inr (by simp [h]))]
  · rw [fingerprint_similarity_eq]
    split_ifs with h1 h2 h3
    · exact le_refl 0
    · exact le_refl 0
    · exact le_refl 0
    · have hdot := listDot_nonneg hflat1 hflat2
      have hna := lt_of_le_of_ne (listNorm_nonneg _) (Ne.symm (not_or.mp h3).1)
      have hnb := lt_of_le_of_ne (listNorm_nonneg _) (Ne.symm (not_or.mp h3).2)
      exact mul_nonneg (div_nonneg hdot (le_of_lt (mul_pos hna hnb)))
        (div_nonneg (Nat.cast_nonneg _) (Nat.cast_nonneg _))
  · rw [fingerprint_similarity_eq]
    split_ifs with h1 h2 h3
    · norm_num
    · norm_num
    · norm_num
    · have hdot := listDot_nonneg hflat1 hflat2
      have hna := lt_of_le_of_ne (listNorm_nonneg _) (Ne.symm (not_or.mp h3).1)
      have hnb := lt_of_le_of_ne (listNorm_nonneg _) (Ne.symm (not_or.mp h3).2)
      have hmaxpos : (0 : ℝ) < ((max fp1.length fp2.length : ℕ) : ℝ) := by
        have hn1 : fp1.length ≠ 0 := fun h => h1 (Or.inl h)
        have : 0 < max fp1.length fp2.length := by omega
        exact_mod_cast this
      have hcos : listDot ((fp1.take (min fp1.length fp2.length)).flatten)
          ((fp2.take (min fp1.length fp2.length)).flatten) /
          (listNorm ((fp1.take (min fp1.length fp2.length)).flatten) *
            listNorm ((fp2.take (min fp1.length fp2.length)).flatten)) ≤ 1 :=
        (div_le_one (mul_pos hna hnb)).mpr (listDot_le_norm_mul_norm hdot)
      have hcos0 : (0 : ℝ) ≤
          listDot ((fp1.take (min fp1.length fp2.length)).flatten)
            ((fp2.take (min fp1.length fp2.length)).flatten) /
          (listNorm ((fp1.take (min fp1.length fp2.length)).flatten) *
            listNorm ((fp2.take (min fp1.length fp2.length)).flatten)) :=
        div_nonneg hdot (le_of_lt (mul_pos hna hnb))
      have hlr1 : ((min fp1.length fp2.length : ℕ) : ℝ) /
          ((max fp1.length fp2.length : ℕ) : ℝ) ≤ 1 := by
        rw [div_le_one hmaxpos]
        exact_mod_cast min_le_max
      have hlr0 : (0 : ℝ) ≤ ((min fp1.length fp2.length : ℕ) : ℝ) /
          ((max fp1.length fp2.length : ℕ) : ℝ) :=
        div_nonneg (Nat.cast_nonneg _) (Nat.cast_nonneg _)
      calc listDot ((fp1.take (min fp1.length fp2.length)).flatten)
            ((fp2.take (min fp1.length fp2.length)).flatten) /
          (listNorm ((fp1.take (min fp1.length fp2.length)).flatten) *
            listNorm ((fp2.take (min fp1.length fp2.length)).flatten)) *
          (((min fp1.length fp2.length : ℕ) : ℝ) /
            ((max fp1.length fp2.length : ℕ) : ℝ)) ≤
          1 * 1 := by
            exact mul_le_mul hcos hlr1 hlr0 (by norm_num)
        _ = 1 := by norm_num
  · intro hne hnorm
    rw [fingerprint_similarity_eq]
    have hlen : fp1.length ≠ 0 := by
      intro h
      exact hne (List.eq_nil_of_length_eq_zero h)
    rw [if_neg (by simp [hlen])]
    simp only [min_self, max_self, List.take_length]
    have hcast : ((fp1.length : ℕ) : ℝ) ≠ 0 := Nat.cast_ne_zero.mpr hlen
    rw [div_self hcast]
    rw [if_neg (by norm_num)]
    rw [if_neg (by simpa using hnorm)]
    rw [listDot_self_eq_ssq, listNorm, Real.mul_self_sqrt (ssq_nonneg _),
      mul_one, div_self]
    intro h0
    apply hnorm
    rw [listNorm, h0, Real.sqrt_zero]

/-- C5 counterexample: the all-zero one-frame signature — exactly the shape
`audio_to_fingerprint` produces for a silent clip — is non-empty, yet its
self-similarity is 0, not approximately 1: the zero-norm guard fires. -/
theorem c5_counterexample :
    fingerprint_similarity [[(0 : ℝ)]] [[(0 : ℝ)]] = 0 := by
  rw [fingerprint_similarity_eq]
  rw [if_neg (by norm_num)]
  rw [if_neg (by norm_num)]
  rw [if_pos]
  left
  simp [listNorm]

/-- Witness for C5 at the non-zero one-frame signature `[[1]]`. -/
theorem c5_fingerprint_similarity_amended_witness :
    fingerprint_similarity [[(1 : ℝ)]] [[(1 : ℝ)]] = 1 :=
  (c5_fingerprint_similarity_amended [[(1 : ℝ)]] [[(1 : ℝ)]]
    (by intro row hrow x hx; simp at hrow; rw [hrow] at hx; simp at hx;
        rw [hx]; norm_num)
    (by intro row hrow x hx; simp at hrow; rw [hrow] at hx; simp at hx;
        rw [hx]; norm_num)).2.2.2.2.2
    (by simp)
    (by simp [listNorm])

/- ────────────────────────────────────────────
   Theorems for C6
   ──────────────────────────────────────────── -/

theorem getD_eq_zero_of_all : ∀ {x : List ℝ}, (∀ v ∈ x, v = 0) → ∀ n : ℕ,
    x.getD n 0 = 0
  | [], _, n => by simp
  | v :: t, h, 0 => h v (by simp)
  | v :: t, h, n + 1 => by
    rw [List.getD_cons_succ]
    exact getD_eq_zero_of_all (fun u hu => h u (List.mem_cons_of_mem _ hu)) n

theorem rfft_zero {x : List ℝ} (h : ∀ v ∈ x, v = 0) : ∀ c ∈ rfft x, c = 0 := by
  intro c hc
  unfold rfft at hc
  obtain ⟨k, -, rfl⟩ := List.mem_map.mp hc
  apply List.sum_eq_zero
  intro t ht
  obtain ⟨n, -, rfl⟩ := List.mem_map.mp ht
  rw [show ((x.getD n 0 : ℝ) : ℂ) = 0 from by
    rw [getD_eq_zero_of_all h n, Complex.ofReal_zero]]
  rw [zero_mul]

theorem listMean_zero {l : List ℝ} (h : ∀ v ∈ l, v = 0) : listMean l = 0 := by
  unfold listMean
  rw [List.sum_eq_zero h, zero_div]

theorem frameBands_zero {spectrum : List ℝ} (h : ∀ v ∈ spectrum, v = 0) :
    ∀ v ∈ frameBands spectrum, v = 0 := by
  intro v hv
  unfold frameBands at hv
  obtain ⟨b, -, rfl⟩ := List.mem_map.mp hv
  show (if b * max 1 (spectrum.length / 32) < spectrum.length then
      listMean ((spectrum.drop (b * max 1 (spectrum.length / 32))).take
        (min ((b + 1) * max 1 (spectrum.length / 32)) spectrum.length -
          b * max 1 (spectrum.length / 32)))
    else 0) = 0
  split_ifs with hb
  · apply listMean_zero
    intro u hu
    exact h u (List.mem_of_mem_drop (List.mem_of_mem_take hu))
  · rfl

theorem audio_to_fingerprint_length {samples : List ℝ} (h : samples ≠ []) :
    (audio_to_fingerprint samples).length =
      (max 1 (((samples.length : ℤ) - 1600).fdiv 800)).toNat := by
  unfold audio_to_fingerprint
  rw [if_neg (fun h0 => h (List.eq_nil_of_length_eq_zero h0))]
  simp only [List.length_map, List.length_range]

/-- C6 counterexample: a silent clip of a single zero sample is a silent
audio input, yet `audio_to_fingerprint` returns a non-empty signature —
`n_frames = max(1, (len - window) // hop)` is at least 1 for every non-empty
input, so only zero-length sample arrays produce the empty signature. -/
theorem c6_counterexample : audio_to_fingerprint [(0 : ℝ)] ≠ [] := by
  intro hnil
  have hlen := audio_to_fingerprint_length (show [(0 : ℝ)] ≠ [] by simp)
  rw [hnil] at hlen
  simp only [List.length_nil] at hlen
  rw [show (((List.length [(0 : ℝ)] : ℤ) - 1600).fdiv 800) = -2 from by
    norm_num
    decide] at hlen
  simp at hlen

/-- C6 amended: `audio_to_fingerprint` returns the empty signature exactly
when the (converted) sample array is empty; a silent input with at least one
sample instead yields a non-empty signature whose entries are all zero. -/
theorem c6_audio_to_fingerprint_amended (samples : List ℝ) :
    (audio_to_fingerprint samples = [] ↔ samples = []) ∧
    (samples ≠ [] → (∀ v ∈ samples, v = 0) →
      audio_to_fingerprint samples ≠ [] ∧
      ∀ row ∈ audio_to_fingerprint samples, ∀ v ∈ row, v = 0) := by
  have hne : samples ≠ [] → audio_to_fingerprint samples ≠ [] := by
    intro h hnil
    have hlen := audio_to_fingerprint_length h
    rw [hnil] at hlen
    simp only [List.length_nil] at hlen
    have h1 : (1 : ℤ) ≤ max 1 (((samples.length : ℤ) - 1600).fdiv 800) :=
      le_max_left _ _
    have h2 : (1 : ℕ) ≤ (max 1 (((samples.length : ℤ) - 1600).fdiv 800)).toNat := by
      exact_mod_cast Int.toNat_le_toNat h1
    omega
  constructor
  · constructor
    · intro hnil
      by_contra h
      exact hne h hnil
    · intro h
      unfold audio_to_fingerprint
      rw [if_pos (by rw [h]; rfl)]
  · intro h hsilent
    refine ⟨hne h, ?_⟩
    intro row hrow v hv
    unfold audio_to_fingerprint at hrow
    rw [if_neg (fun h0 => h (List.eq_nil_of_length_eq_zero h0))] at hrow
    obtain ⟨i, -, rfl⟩ := List.mem_map.mp hrow
    have hnormed : ∀ u ∈ (if 0 < (samples.map fun x => |x|).foldr max 0 then
        samples.map fun x => x / (samples.map fun x => |x|).foldr max 0
      else samples), u = 0 := by
      split_ifs with hp
      · intro u hu
        obtain ⟨w, hw, rfl⟩ := List.mem_map.mp hu
        rw [hsilent w hw, zero_div]
      · exact hsilent
    refine frameBands_zero ?_ v hv
    intro u hu
    obtain ⟨c, hc, rfl⟩ := List.mem_map.mp hu
    rw [rfft_zero ?_ c hc]
    · exact map_zero Complex.abs
    · intro t ht
      obtain ⟨t1, ht1, t2, ht2, rfl⟩ := mem_zipWith_mul ht
      rw [hnormed t1 (List.mem_of_mem_drop (List.mem_of_mem_take ht1)),
        zero_mul]

/-- Witness for C6 at a concrete two-sample silent clip. -/
theorem c6_audio_to_fingerprint_amended_witness :
    audio_to_fingerprint [(0 : ℝ), 0] ≠ [] ∧
    ∀ row ∈ audio_to_fingerprint [(0 : ℝ), 0], ∀ v ∈ row, v = 0 :=
  (c6_audio_to_fingerprint_amended [(0 : ℝ), 0]).2 (by simp)
    (by intro v hv; rcases List.mem_cons.mp hv with rfl | hv'; · rfl
        · simpa using hv')

end MosaicTTS
